import Mathlib

/-!
Verification of gitraffe (a terminal git-graph viewer written in Go).

The Go source (`main.go`) is shallowly embedded here: Go strings become
`List Char`, Go `int` becomes `Int` (or `Nat` where the source value is a
length), fallible operations (slice expressions that can panic) return
`Option`.  Each definition below mirrors one function or one code block of
the source; comments name the source function it embeds.
-/

namespace Gitraffe

/-- Go `strings.Split(s, "\n")`: always returns at least one element. -/
def splitOnNl : List Char → List (List Char)
  | [] => [[]]
  | c :: rest =>
    if c = '\n' then [] :: splitOnNl rest
    else
      match splitOnNl rest with
      | [] => [[c]]
      | l :: ls => (c :: l) :: ls

/-- Go `strings.Join(lines, "\n")`. -/
def joinNl : List (List Char) → List Char
  | [] => []
  | [x] => x
  | x :: xs => x ++ '\n' :: joinNl xs

/-- Go slice expression `l[lo:hi]`: panics (here `none`) unless
`0 ≤ lo ≤ hi ≤ len l`. -/
def goSlice (l : List α) (lo hi : Int) : Option (List α) :=
  if 0 ≤ lo ∧ lo ≤ hi ∧ hi ≤ l.length then
    some ((l.drop lo.toNat).take (hi - lo).toNat)
  else
    none

/-- Go `strings.SplitN(s, sep, n)` for a single-character separator and
`n ≥ 1`: at most `n` pieces, the last piece keeps the remainder unsplit. -/
def splitNChar (sep : Char) : Nat → List Char → List (List Char)
  | 0, _ => []
  | 1, s => [s]
  | n + 2, s =>
    let pre := s.takeWhile (· ≠ sep)
    if pre.length = s.length then [s]
    else pre :: splitNChar sep (n + 1) (s.drop (pre.length + 1))

/-- Go `unicode.IsSpace` restricted to the characters it recognises in
Latin-1 (the ones that can occur in the fields we model). -/
def isSpaceGo (c : Char) : Bool :=
  c = ' ' ∨ c = '\t' ∨ c = '\n' ∨ c.toNat = 11 ∨ c.toNat = 12 ∨ c = '\r' ∨
    c.toNat = 0x85 ∨ c.toNat = 0xA0

/-- Accumulator for `fieldsGo`. -/
def fieldsAux : List Char → List Char → List (List Char)
  | [], acc => if acc = [] then [] else [acc.reverse]
  | c :: rest, acc =>
    if isSpaceGo c then
      if acc = [] then fieldsAux rest [] else acc.reverse :: fieldsAux rest []
    else
      fieldsAux rest (c :: acc)

/-- Go `strings.Fields`: split around runs of whitespace. -/
def fieldsGo (s : List Char) : List (List Char) := fieldsAux s []

/-- Go `strings.TrimSpace`. -/
def trimSpace (s : List Char) : List Char :=
  ((s.dropWhile isSpaceGo).reverse.dropWhile isSpaceGo).reverse

/-- Decimal digit test. -/
def isDigitGo (c : Char) : Bool := '0' ≤ c ∧ c ≤ '9'

/-- Numeric value of a digit string. -/
def digitsToNat (s : List Char) : Nat :=
  s.foldl (fun a c => a * 10 + (c.toNat - '0'.toNat)) 0

/-- Go `strconv.ParseInt(s, 10, 64)`: optional sign, nonempty digit run,
value must fit in int64; `none` models a returned error. -/
def parseInt64 (s : List Char) : Option Int :=
  let (sign, digits) : Int × List Char :=
    match s with
    | '+' :: r => (1, r)
    | '-' :: r => (-1, r)
    | r => (1, r)
  if digits = [] then none
  else if digits.all isDigitGo then
    let v : Int := sign * (digitsToNat digits : Int)
    if -(2 ^ 63) ≤ v ∧ v < 2 ^ 63 then some v else none
  else none

/-- Lower-case hexadecimal digit, as matched by the source's regexp
`[0-9a-f]`. -/
def isHexDigit (c : Char) : Bool :=
  ('0' ≤ c ∧ c ≤ '9') ∨ ('a' ≤ c ∧ c ≤ 'f')

/-- Does a run of 40 hexadecimal characters start at the head of `l`?
(One match position of the source's regexp `[0-9a-f]{40}`.) -/
def hexRun40 (l : List Char) : Bool :=
  decide (40 ≤ l.length) && (l.take 40).all isHexDigit

/-- Go `hashPattern.FindStringIndex(line)` (start index only): the leftmost
position where `[0-9a-f]{40}` matches, from `loadGraphData`. -/
def findHashIdx : List Char → Option Nat
  | [] => none
  | c :: rest =>
    if hexRun40 (c :: rest) then some 0
    else (findHashIdx rest).map (· + 1)

/-- Go `transliterateGraph`: `strings.NewReplacer("*", "●", "|", "│")`.
Both patterns are single characters, so the replacer is a character map. -/
def transliterateGraph (s : List Char) : List Char :=
  s.map fun c => if c = '*' then '●' else if c = '|' then '│' else c

/-- The `commit` struct of the source.  `date` is `none` when the
timestamp failed to parse and the Go `time.Time` keeps its zero value. -/
structure GCommit where
  hash : List Char
  fullHash : List Char
  author : List Char
  date : Option Int
  message : List Char
  parents : List (List Char)
  refs : List Char
  graphLine : List Char
  diffLoaded : Bool
  diffStat : List Char
  diffBody : List Char
deriving DecidableEq, Repr

instance : Inhabited GCommit :=
  ⟨⟨[], [], [], none, [], [], [], [], false, [], []⟩⟩

/-- The `displayRow` struct of the source. -/
structure DisplayRowL where
  graphChars : List Char
  commitIdx : Int
  graphWidth : Nat
deriving DecidableEq, Repr

/-- Shorten a hash: Go `if len(p) > 7 { p = p[:7] }`. -/
def shortHash (p : List Char) : List Char :=
  if 7 < p.length then p.take 7 else p

/-- Build the `commit` record from the `\x00`-separated fields, exactly as
in `loadGraphData` (requires `4 ≤ parts.length` at the call site). -/
def mkCommit (parts : List (List Char)) : GCommit :=
  let fullHash := parts.getD 0 []
  let author := parts.getD 1 []
  let date := parseInt64 (parts.getD 2 [])
  let message := parts.getD 3 []
  let parents :=
    if 4 < parts.length ∧ parts.getD 4 [] ≠ [] then
      (fieldsGo (parts.getD 4 [])).map shortHash
    else []
  let refs := if 5 < parts.length then trimSpace (parts.getD 5 []) else []
  { hash := shortHash fullHash, fullHash := fullHash, author := author,
    date := date, message := message, parents := parents, refs := refs,
    graphLine := [], diffLoaded := false, diffStat := [], diffBody := [] }

/-- The portion of the model state written by `loadGraphData`. -/
structure ParseState where
  commits : List GCommit
  rows : List DisplayRowL
  maxGraphWidth : Nat
deriving DecidableEq, Repr

/-- The body of `loadGraphData`'s per-line loop. -/
def parseLine (st : ParseState) (line : List Char) : ParseState :=
  if line = [] then st
  else
    match findHashIdx line with
    | some i =>
      let graphPart := line.take i
      let dataPart := line.drop i
      let parts := splitNChar '\x00' 6 dataPart
      if parts.length < 4 then st
      else
        let c := mkCommit parts
        let commitIdx := st.commits.length
        let gw := graphPart.length
        { commits := st.commits ++ [c],
          rows := st.rows ++
            [⟨transliterateGraph graphPart, (commitIdx : Int), gw⟩],
          maxGraphWidth := if st.maxGraphWidth < gw then gw else st.maxGraphWidth }
    | none =>
      let gw := line.length
      { st with
          rows := st.rows ++ [⟨transliterateGraph line, -1, gw⟩],
          maxGraphWidth := if st.maxGraphWidth < gw then gw else st.maxGraphWidth }

/-- Go `loadGraphData` applied to the already-split output lines of
`git log --graph`: the loop over `lines` starting from the reset state. -/
def loadGraphData (lines : List (List Char)) : ParseState :=
  lines.foldl parseLine ⟨[], [], 0⟩

/-- The scroll-window computation of `renderCommitList` (graph mode):
given the row count, the selected row index and the viewport height,
produce the half-open visible range `[start, end)`.  The call site clamps
`visibleHeight ≥ 1` and `selectedRowIdx ≥ 0`, so Lean's Int division
agrees with Go's truncating division here. -/
def visibleRange (totalRows : Nat) (selectedRowIdx visibleHeight : Int) :
    Int × Int :=
  let startIdx := selectedRowIdx - visibleHeight / 3
  let startIdx := if startIdx < 0 then 0 else startIdx
  let endIdx := startIdx + visibleHeight
  if endIdx > (totalRows : Int) then
    let endIdx : Int := totalRows
    let startIdx := endIdx - visibleHeight
    let startIdx := if startIdx < 0 then 0 else startIdx
    (startIdx, endIdx)
  else
    (startIdx, endIdx)

/-- The connector padding of `renderCommitList`:
`padLen := maxGraphWidth - row.GraphWidth; if padLen < 0 { 0 }` followed by
`row.GraphChars + strings.Repeat(" ", padLen)` (Nat subtraction models the
clamp at zero). -/
def padGraph (maxW : Nat) (r : DisplayRowL) : List Char :=
  r.graphChars ++ List.replicate (maxW - r.graphWidth) ' '

/-! ### Spec-side description of the graph-stream parser (for C2)

The claim describes the parser line by line: each non-empty line is
classified independently (commit row / dropped / connector-only) and rows
come out in input order, with commit rows numbered by how many commits
were appended before them.  The definitions below follow that wording;
the C2 theorem proves the source's stateful loop equal to them. -/

/-- Classification of a single input line, following the claim's wording. -/
inductive LineClass where
  | commitRow (connector : List Char) (c : GCommit)
  | dropped
  | connectorOnly
deriving DecidableEq

/-- Spec-side per-line classification: find the first 40-character
hexadecimal run; if found, split the remainder on `\x00` into at most 6
fields and drop the line when fewer than 4 result; otherwise the whole
line is connector-only. -/
def classifyLine (line : List Char) : LineClass :=
  match findHashIdx line with
  | some i =>
    let parts := splitNChar '\x00' 6 (line.drop i)
    if parts.length < 4 then .dropped
    else .commitRow (line.take i) (mkCommit parts)
  | none => .connectorOnly

/-- Spec-side commit table: the commit records of the commit-classified
lines, in input order. -/
def specCommits : List (List Char) → List GCommit
  | [] => []
  | l :: rest =>
    if l = [] then specCommits rest
    else
      match classifyLine l with
      | .commitRow _ c => c :: specCommits rest
      | .dropped => specCommits rest
      | .connectorOnly => specCommits rest

/-- Spec-side row sequence: one row per kept line, in input order, with
commit rows numbered sequentially starting from `nBefore`. -/
def specRows (nBefore : Nat) : List (List Char) → List DisplayRowL
  | [] => []
  | l :: rest =>
    if l = [] then specRows nBefore rest
    else
      match classifyLine l with
      | .commitRow conn _ =>
        ⟨transliterateGraph conn, (nBefore : Int), conn.length⟩ ::
          specRows (nBefore + 1) rest
      | .dropped => specRows nBefore rest
      | .connectorOnly =>
        ⟨transliterateGraph l, -1, l.length⟩ :: specRows nBefore rest

/-- Equation: an empty line is skipped. -/
theorem parseLine_nil (st : ParseState) : parseLine st [] = st := by
  simp [parseLine]

/-- Equation: a non-empty line with no 40-hex run becomes a connector-only
row. -/
theorem parseLine_conn (st : ParseState) (l : List Char) (hl : l ≠ [])
    (hfind : findHashIdx l = none) :
    parseLine st l =
      { st with
          rows := st.rows ++ [⟨transliterateGraph l, -1, l.length⟩],
          maxGraphWidth :=
            if st.maxGraphWidth < l.length then l.length
            else st.maxGraphWidth } := by
  simp [parseLine, hl, hfind]

/-- Equation: a line whose record splits into fewer than 4 fields is
dropped whole. -/
theorem parseLine_drop (st : ParseState) (l : List Char) (i : Nat)
    (hl : l ≠ []) (hfind : findHashIdx l = some i)
    (hlen : (splitNChar '\x00' 6 (l.drop i)).length < 4) :
    parseLine st l = st := by
  simp [parseLine, hl, hfind, hlen]

/-- Equation: a commit line appends one commit and one row referencing
it. -/
theorem parseLine_commit (st : ParseState) (l : List Char) (i : Nat)
    (hl : l ≠ []) (hfind : findHashIdx l = some i)
    (hlen : ¬(splitNChar '\x00' 6 (l.drop i)).length < 4) :
    parseLine st l =
      { commits := st.commits ++ [mkCommit (splitNChar '\x00' 6 (l.drop i))],
        rows := st.rows ++
          [⟨transliterateGraph (l.take i), (st.commits.length : Int),
            (l.take i).length⟩],
        maxGraphWidth :=
          if st.maxGraphWidth < (l.take i).length then (l.take i).length
          else st.maxGraphWidth } := by
  simp [parseLine, hl, hfind, hlen]

/-- The stateful parsing loop, started from any state, appends exactly the
spec-side commits and rows. -/
theorem foldl_parseLine_eq (lines : List (List Char)) :
    ∀ st : ParseState,
      (lines.foldl parseLine st).commits = st.commits ++ specCommits lines ∧
      (lines.foldl parseLine st).rows =
        st.rows ++ specRows st.commits.length lines := by
  induction lines with
  | nil => intro st; simp [specCommits, specRows]
  | cons l rest ih =>
    intro st
    obtain ⟨ihc, ihr⟩ := ih (parseLine st l)
    rw [List.foldl_cons]
    by_cases hl : l = []
    · subst hl
      rw [parseLine_nil] at ihc ihr ⊢
      simp [specCommits, specRows, ihc, ihr]
    · cases hfind : findHashIdx l with
      | none =>
        rw [parseLine_conn st l hl hfind] at ihc ihr ⊢
        simp only at ihc ihr
        simp [specCommits, specRows, hl, classifyLine, hfind, ihc, ihr,
          List.append_assoc]
      | some i =>
        by_cases hlen : (splitNChar '\x00' 6 (l.drop i)).length < 4
        · rw [parseLine_drop st l i hl hfind hlen] at ihc ihr ⊢
          simp [specCommits, specRows, hl, classifyLine, hfind, hlen,
            ihc, ihr]
        · rw [parseLine_commit st l i hl hfind hlen] at ihc ihr ⊢
          simp only [List.length_append, List.length_singleton] at ihc ihr
          refine ⟨?_, ?_⟩
          · rw [ihc]
            simp [specCommits, hl, classifyLine, hfind, hlen]
          · rw [ihr]
            simp [specRows, hl, classifyLine, hfind, hlen]

/-- C2: the graph-stream parser equals its per-line description — every
non-empty line with a 40-hex run and at least 4 `\x00`-fields produces one
commit row referencing the newly appended commit (numbered sequentially),
lines with too few fields are dropped whole, lines with no hex run become
connector-only rows with `commitIdx = -1`, and rows appear in exactly the
input order. -/
theorem c2_graph_stream_parse (lines : List (List Char)) :
    (loadGraphData lines).commits = specCommits lines ∧
    (loadGraphData lines).rows = specRows 0 lines := by
  simpa [loadGraphData] using foldl_parseLine_eq lines ⟨[], [], 0⟩

/-! ### ANSI-safe label overlay (`addBoxLabel`, for C4) -/

/-- Final byte of an ANSI escape sequence: the `0x40–0x7E` test of
`addBoxLabel`. -/
def isFinalByte (c : Char) : Bool := 0x40 ≤ c.toNat ∧ c.toNat ≤ 0x7E

/-- The inner copy loop of `addBoxLabel`: after `ESC [`, copy parameter
and intermediate bytes up to and including the final byte (everything, if
the sequence is unterminated).  Returns the copied bytes and the rest. -/
def escSpan : List Char → List Char × List Char
  | [] => ([], [])
  | c :: rest =>
    if isFinalByte c then ([c], rest)
    else
      let p := escSpan rest
      (c :: p.1, p.2)

theorem escSpan_append (l : List Char) :
    (escSpan l).1 ++ (escSpan l).2 = l := by
  induction l with
  | nil => simp [escSpan]
  | cons c rest ih =>
    simp only [escSpan]
    split_ifs <;> simp_all

theorem escSpan_length (l : List Char) :
    (escSpan l).2.length ≤ l.length := by
  induction l with
  | nil => simp [escSpan]
  | cons c rest ih =>
    simp only [escSpan]
    split_ifs <;> simp_all <;> omega

/-- The main walk of `addBoxLabel` over the top line: copy `ESC [ … final`
sequences verbatim without counting them, otherwise substitute label
characters for the visible characters at positions `1 … len(label)`. -/
def overlayLoop (label : List Char) : List Char → Nat → Nat → List Char
  | [], _, _ => []
  | c :: rest, vis, li =>
    if c = '\x1b' ∧ rest.head? = some '[' then
      c :: '[' :: ((escSpan rest.tail).1 ++
        overlayLoop label (escSpan rest.tail).2 vis li)
    else if 1 ≤ vis ∧ li < label.length then
      label.getD li ' ' :: overlayLoop label rest (vis + 1) (li + 1)
    else
      c :: overlayLoop label rest (vis + 1) li
termination_by l => l.length
decreasing_by
  · have h1 := escSpan_length rest.tail
    have h2 : rest.tail.length ≤ rest.length := by
      cases rest <;> simp
    simp only [List.length_cons]
    omega
  · simp
  · simp

/-- Go `addBoxLabel`: overlay `label` onto the visible characters of the
first line of `rendered`, right after its first visible character; lines
after the first are returned unchanged (`strings.SplitN(s, "\n", 2)`). -/
def addBoxLabel (rendered label : List Char) : List Char :=
  let top := rendered.takeWhile (· ≠ '\n')
  let rest := rendered.dropWhile (· ≠ '\n')
  let newTop := overlayLoop label top 0 0
  match rest with
  | [] => newTop
  | _ :: restTail => newTop ++ '\n' :: restTail

/-- Spec-side token: an opaque ANSI escape sequence or one visible
character. -/
inductive AnsiTok where
  | esc (body : List Char)
  | vis (c : Char)
deriving DecidableEq, Repr

/-- Spec-side tokenization of a styled line: each `ESC [ … final` run is
one opaque `esc` token, every other character is a `vis` token. -/
def tokenize : List Char → List AnsiTok
  | [] => []
  | c :: rest =>
    if c = '\x1b' ∧ rest.head? = some '[' then
      AnsiTok.esc (c :: '[' :: (escSpan rest.tail).1) ::
        tokenize (escSpan rest.tail).2
    else AnsiTok.vis c :: tokenize rest
termination_by l => l.length
decreasing_by
  · have h1 := escSpan_length rest.tail
    have h2 : rest.tail.length ≤ rest.length := by
      cases rest <;> simp
    simp only [List.length_cons]
    omega
  · simp

/-- Flatten tokens back to characters. -/
def flatToks : List AnsiTok → List Char
  | [] => []
  | AnsiTok.esc b :: rest => b ++ flatToks rest
  | AnsiTok.vis c :: rest => c :: flatToks rest

/-- Spec-side overlay following the claim's words: escape tokens are
copied verbatim and contribute nothing to the visible position; visible
characters at positions `1 … len(label)` (counting from 0) are replaced by
the label's characters one-for-one, and a label longer than the remaining
visible characters is simply truncated. -/
def overlayToks (label : List Char) :
    List AnsiTok → Nat → Nat → List AnsiTok
  | [], _, _ => []
  | AnsiTok.esc b :: rest, vis, li =>
    AnsiTok.esc b :: overlayToks label rest vis li
  | AnsiTok.vis c :: rest, vis, li =>
    if 1 ≤ vis ∧ li < label.length then
      AnsiTok.vis (label.getD li ' ') :: overlayToks label rest (vis + 1) (li + 1)
    else
      AnsiTok.vis c :: overlayToks label rest (vis + 1) li

/-- Fuel-indexed statement of `flatToks_tokenize`. -/
theorem flatToks_tokenize_aux (n : Nat) :
    ∀ l : List Char, l.length ≤ n → flatToks (tokenize l) = l := by
  induction n with
  | zero =>
    intro l hl
    have hl0 : l = [] := by cases l <;> simp_all
    subst hl0
    simp [tokenize, flatToks]
  | succ n ih =>
    intro l hl
    cases l with
    | nil => simp [tokenize, flatToks]
    | cons c rest =>
      by_cases hesc : c = '\x1b' ∧ rest.head? = some '['
      · simp only [tokenize]
        rw [if_pos hesc]
        simp only [flatToks]
        have hlen : (escSpan rest.tail).2.length ≤ n := by
          have h1 := escSpan_length rest.tail
          have h2 : rest.tail.length ≤ rest.length := by cases rest <;> simp
          simp only [List.length_cons] at hl
          omega
        rw [ih _ hlen]
        have hr : rest = '[' :: rest.tail := by
          obtain ⟨-, hh⟩ := hesc
          cases rest with
          | nil => simp at hh
          | cons d r => simp_all
        conv_rhs => rw [hr]
        simp [escSpan_append]
      · simp only [tokenize]
        rw [if_neg hesc]
        simp only [flatToks]
        have : rest.length ≤ n := by
          simp only [List.length_cons] at hl; omega
        rw [ih _ this]

/-- Tokenization loses nothing: flattening the tokens restores the line
(escape sequences are never split or dropped). -/
theorem flatToks_tokenize (l : List Char) : flatToks (tokenize l) = l :=
  flatToks_tokenize_aux l.length l le_rfl

/-- Fuel-indexed refinement: the imperative walk of `addBoxLabel` equals
the token-level overlay. -/
theorem overlayLoop_eq_toks_aux (label : List Char) (n : Nat) :
    ∀ (l : List Char) (vis li : Nat), l.length ≤ n →
      overlayLoop label l vis li =
        flatToks (overlayToks label (tokenize l) vis li) := by
  induction n with
  | zero =>
    intro l vis li hl
    have hl0 : l = [] := by cases l <;> simp_all
    subst hl0
    simp [overlayLoop, tokenize, overlayToks, flatToks]
  | succ n ih =>
    intro l vis li hl
    cases l with
    | nil => simp [overlayLoop, tokenize, overlayToks, flatToks]
    | cons c rest =>
      by_cases hesc : c = '\x1b' ∧ rest.head? = some '['
      · simp only [overlayLoop, tokenize]
        rw [if_pos hesc, if_pos hesc]
        simp only [overlayToks, flatToks]
        have hlen : (escSpan rest.tail).2.length ≤ n := by
          have h1 := escSpan_length rest.tail
          have h2 : rest.tail.length ≤ rest.length := by cases rest <;> simp
          simp only [List.length_cons] at hl
          omega
        rw [ih _ vis li hlen]
        simp [List.append_assoc]
      · have hrest : rest.length ≤ n := by
          simp only [List.length_cons] at hl; omega
        by_cases hvis : 1 ≤ vis ∧ li < label.length
        · simp only [overlayLoop, tokenize]
          rw [if_neg hesc, if_neg hesc, if_pos hvis]
          simp only [overlayToks, flatToks]
          rw [if_pos hvis]
          simp only [flatToks]
          rw [ih _ (vis + 1) (li + 1) hrest]
        · simp only [overlayLoop, tokenize]
          rw [if_neg hesc, if_neg hesc, if_neg hvis]
          simp only [overlayToks, flatToks]
          rw [if_neg hvis]
          simp only [flatToks]
          rw [ih _ (vis + 1) li hrest]

/-- The first element that survives `dropWhile (· ≠ '\n')` is a
newline. -/
theorem dropWhile_ne_nl (s : List Char) :
    ∀ d tl, s.dropWhile (· ≠ '\n') = d :: tl → d = '\n' := by
  induction s with
  | nil => intro d tl h; simp at h
  | cons c r ih =>
    intro d tl h
    by_cases hc : c = '\n'
    · subst hc
      simp at h
      exact h.1.symm
    · rw [List.dropWhile_cons_of_pos (by simpa using hc)] at h
      exact ih d tl h

/-- C4: `addBoxLabel` equals the token-level overlay on the frame's top
line, with every line after the first returned unchanged; the token
overlay keeps every `ESC [ … final` escape sequence verbatim as one
opaque token that contributes nothing to the visible position count,
replaces the visible characters right after the first visible character
one-for-one with the label, and truncates an over-long label.  The second
conjunct shows the tokenization splits the top line exactly (no escape
sequence is split or dropped). -/
theorem c4_label_overlay (rendered label : List Char) :
    addBoxLabel rendered label =
      flatToks (overlayToks label
        (tokenize (rendered.takeWhile (· ≠ '\n'))) 0 0) ++
        rendered.dropWhile (· ≠ '\n') ∧
    flatToks (tokenize (rendered.takeWhile (· ≠ '\n'))) =
      rendered.takeWhile (· ≠ '\n') := by
  refine ⟨?_, flatToks_tokenize _⟩
  have hov := overlayLoop_eq_toks_aux label
    (rendered.takeWhile (· ≠ '\n')).length
    (rendered.takeWhile (· ≠ '\n')) 0 0 le_rfl
  rcases hdrop : rendered.dropWhile (· ≠ '\n') with - | ⟨d, tl⟩
  · simp only [addBoxLabel]
    rw [hdrop]
    simpa using hov
  · have hd : d = '\n' := dropWhile_ne_nl rendered d tl hdrop
    subst hd
    simp only [addBoxLabel]
    rw [hdrop]
    exact congrArg (fun x => x ++ '\n' :: tl) hov

/-! ### Exact-height trimming (`trimToHeight`, for C5) -/

/-- The trailing-empty-line drop at the top of `trimToHeight`:
`if len(lines) > 0 && lines[len(lines)-1] == "" { lines = lines[:len(lines)-1] }`. -/
def dropTrailingEmpty (lines : List (List Char)) : List (List Char) :=
  if 0 < lines.length ∧ lines.getLastD [] = [] then lines.dropLast else lines

/-- Go `trimToHeight`: force a rendered string to exactly `targetHeight`
lines.  `none` models a run-time panic: for `targetHeight < 2` with more
than `targetHeight` content lines, the Go slice `lines[1:targetHeight-1]`
has `low > high` and panics. -/
def trimToHeight (rendered : List Char) (targetHeight : Int) :
    Option (List Char) :=
  let lines := dropTrailingEmpty (splitOnNl rendered)
  if (lines.length : Int) > targetHeight then
    match lines, goSlice lines 1 (targetHeight - 1) with
    | [], _ => none
    | _ :: _, none => none
    | l0 :: ltail, some middle =>
      some (joinNl ((l0 :: middle) ++ [(l0 :: ltail).getLastD []]))
  else
    some (joinNl (lines ++
      List.replicate (targetHeight - (lines.length : Int)).toNat []))

theorem splitOnNl_ne_nil (s : List Char) : splitOnNl s ≠ [] := by
  cases s with
  | nil => simp [splitOnNl]
  | cons c rest =>
    by_cases hc : c = '\n'
    · subst hc; simp [splitOnNl]
    · simp only [splitOnNl, if_neg hc]
      split <;> simp_all

/-- No produced line contains a newline. -/
theorem mem_splitOnNl_no_nl (s : List Char) :
    ∀ x ∈ splitOnNl s, '\n' ∉ x := by
  induction s with
  | nil => intro x hx; simp [splitOnNl] at hx; simp [hx]
  | cons c rest ih =>
    intro x hx
    by_cases hc : c = '\n'
    · subst hc
      simp only [splitOnNl, if_true, List.mem_cons] at hx
      rcases hx with hx | hx
      · simp [hx]
      · exact ih x hx
    · simp only [splitOnNl, if_neg hc] at hx
      rcases hsp : splitOnNl rest with - | ⟨l, ls⟩
      · exact absurd hsp (splitOnNl_ne_nil rest)
      · rw [hsp] at hx
        simp only [List.mem_cons] at hx
        rcases hx with hx | hx
        · subst hx
          intro hmem
          rcases List.mem_cons.mp hmem with h | h
          · exact hc h.symm
          · exact ih l (by rw [hsp]; exact List.mem_cons_self l ls) h
        · exact ih x (by rw [hsp]; exact List.mem_cons_of_mem l hx)

/-- A newline-free string splits to itself alone. -/
theorem splitOnNl_of_no_nl (x : List Char) (hx : '\n' ∉ x) :
    splitOnNl x = [x] := by
  induction x with
  | nil => simp [splitOnNl]
  | cons c rest ih =>
    simp only [List.mem_cons, not_or] at hx
    have hc : ¬c = '\n' := fun h => hx.1 h.symm
    simp only [splitOnNl, if_neg hc]
    rw [ih hx.2]

/-- Splitting after a newline-free prefix plus an explicit newline. -/
theorem splitOnNl_append_nl (x t : List Char) (hx : '\n' ∉ x) :
    splitOnNl (x ++ '\n' :: t) = x :: splitOnNl t := by
  induction x with
  | nil => simp [splitOnNl]
  | cons c rest ih =>
    simp only [List.mem_cons, not_or] at hx
    have hc : ¬c = '\n' := fun h => hx.1 h.symm
    simp only [List.cons_append, splitOnNl, if_neg hc, List.append_eq]
    rw [ih hx.2]

/-- Splitting inverts `joinNl` on nonempty lists of newline-free
lines. -/
theorem splitOnNl_joinNl (xs : List (List Char)) (hne : xs ≠ [])
    (hnl : ∀ x ∈ xs, '\n' ∉ x) : splitOnNl (joinNl xs) = xs := by
  induction xs with
  | nil => exact absurd rfl hne
  | cons x ys ih =>
    cases ys with
    | nil =>
      simp only [joinNl]
      exact splitOnNl_of_no_nl x (hnl x (List.mem_cons_self x []))
    | cons y ys' =>
      have hjoin : joinNl (x :: y :: ys') = x ++ '\n' :: joinNl (y :: ys') :=
        rfl
      rw [hjoin, splitOnNl_append_nl x _ (hnl x (List.mem_cons_self x _)),
        ih (by simp) (fun z hz => hnl z (List.mem_cons_of_mem x hz))]

/-- The default-valued last element of a nonempty list is a member. -/
theorem getLastD_mem {α : Type} : ∀ (l : List α) (d : α), l ≠ [] →
    l.getLastD d ∈ l := by
  intro l
  induction l with
  | nil => intro d h; exact absurd rfl h
  | cons a t ih =>
    intro d h
    cases t with
    | nil => simp
    | cons b t' =>
      have hmem := ih a (by simp)
      simpa using Or.inr hmem

/-- Elements survive the trailing-empty-line drop. -/
theorem mem_dropTrailingEmpty {x : List Char} {L : List (List Char)}
    (hx : x ∈ dropTrailingEmpty L) : x ∈ L := by
  unfold dropTrailingEmpty at hx
  split at hx
  · exact (List.dropLast_sublist L).subset hx
  · exact hx

/-- C5 (counterexample): at `targetHeight = 1` with two content lines, the
Go slice `lines[1:targetHeight-1]` evaluates `lines[1:0]` (`low > high`)
and panics instead of returning a one-line string. -/
theorem c5_trim_counterexample :
    trimToHeight ['a', '\n', 'b'] 1 = none ∧ (1 : Int) ≥ 1 := by
  constructor
  · decide
  · decide

/-- Short-content equation for trimToHeight. -/
theorem trimToHeight_short (rendered : List Char) (th : Int)
    (hshort : ((dropTrailingEmpty (splitOnNl rendered)).length : Int) ≤ th) :
    trimToHeight rendered th =
      some (joinNl (dropTrailingEmpty (splitOnNl rendered) ++
        List.replicate
          (th - ((dropTrailingEmpty (splitOnNl rendered)).length : Int)).toNat
          [])) := by
  simp only [trimToHeight]
  rw [if_neg (not_lt.mpr hshort)]

/-- Long-content equation for trimToHeight. -/
theorem trimToHeight_long (rendered : List Char) (th : Int)
    (l0 : List Char) (ltail : List (List Char))
    (hls : dropTrailingEmpty (splitOnNl rendered) = l0 :: ltail)
    (hlong : (((l0 :: ltail).length : Int)) > th)
    (h2 : 2 ≤ th) :
    trimToHeight rendered th =
      some (joinNl ((l0 :: ltail.take (th.toNat - 2)) ++
        [(l0 :: ltail).getLastD []])) := by
  have hcond : (0 : Int) ≤ 1 ∧ (1 : Int) ≤ th - 1 ∧
      th - 1 ≤ (((l0 :: ltail).length : Int)) := by
    refine ⟨by omega, by omega, ?_⟩
    simp only [List.length_cons] at hlong ⊢
    push_cast at hlong ⊢
    omega
  have hgs : goSlice (l0 :: ltail) 1 (th - 1) =
      some (ltail.take (th.toNat - 2)) := by
    simp only [goSlice, if_pos hcond]
    have ht : (th - 1 - 1).toNat = th.toNat - 2 := by omega
    norm_num [ht]
  simp only [trimToHeight, hls]
  rw [if_pos hlong, hgs]

/-- C5 (amended): for every input string and every target height ≥ 2,
`trimToHeight` returns a string of exactly `targetHeight` lines. -/
theorem c5_trim_to_height (rendered : List Char) (th : Int) (h : 2 ≤ th) :
    ∃ out, trimToHeight rendered th = some out ∧
      ((splitOnNl out).length : Int) = th ∧
      (((dropTrailingEmpty (splitOnNl rendered)).length : Int) > th →
        splitOnNl out =
          ((dropTrailingEmpty (splitOnNl rendered)).headD [] ::
            ((dropTrailingEmpty (splitOnNl rendered)).drop 1).take
              (th.toNat - 2)) ++
            [(dropTrailingEmpty (splitOnNl rendered)).getLastD []]) ∧
      (((dropTrailingEmpty (splitOnNl rendered)).length : Int) ≤ th →
        splitOnNl out = dropTrailingEmpty (splitOnNl rendered) ++
          List.replicate
            (th - ((dropTrailingEmpty (splitOnNl rendered)).length : Int)).toNat
            []) := by
  have hnl : ∀ x ∈ dropTrailingEmpty (splitOnNl rendered), '\n' ∉ x :=
    fun x hx => mem_splitOnNl_no_nl rendered x (mem_dropTrailingEmpty hx)
  by_cases hlong :
      ((dropTrailingEmpty (splitOnNl rendered)).length : Int) > th
  · rcases hls : dropTrailingEmpty (splitOnNl rendered) with - | ⟨l0, ltail⟩
    · rw [hls] at hlong; simp at hlong; omega
    · rw [hls] at hlong hnl
      have heq := trimToHeight_long rendered th l0 ltail hls hlong h
      have hsp : splitOnNl (joinNl ((l0 :: ltail.take (th.toNat - 2)) ++
          [(l0 :: ltail).getLastD []])) =
          (l0 :: ltail.take (th.toNat - 2)) ++
            [(l0 :: ltail).getLastD []] := by
        apply splitOnNl_joinNl
        · simp
        · intro x hx
          have hx' : x = l0 ∨ x ∈ ltail.take (th.toNat - 2) ∨
              x = (l0 :: ltail).getLastD [] := by simpa using hx
          rcases hx' with hx' | hx' | hx'
          · subst hx'; exact hnl _ (List.mem_cons_self _ _)
          · exact hnl x (List.mem_cons_of_mem l0 (List.take_subset _ _ hx'))
          · subst hx'; exact hnl _ (getLastD_mem _ [] (by simp))
      refine ⟨_, heq, ?_, ?_, ?_⟩
      · rw [hsp]
        have hlong' : th < (ltail.length : Int) + 1 := by simpa using hlong
        simp only [List.length_append, List.length_cons, List.length_take,
          List.length_singleton, List.length_nil]
        omega
      · intro _
        rw [hsp]
        simp
      · intro hshort
        omega
  · push_neg at hlong
    have heq := trimToHeight_short rendered th hlong
    have hsp : splitOnNl (joinNl (dropTrailingEmpty (splitOnNl rendered) ++
        List.replicate
          (th - ((dropTrailingEmpty (splitOnNl rendered)).length : Int)).toNat
          [])) =
        dropTrailingEmpty (splitOnNl rendered) ++
          List.replicate
            (th - ((dropTrailingEmpty (splitOnNl rendered)).length : Int)).toNat
            [] := by
      apply splitOnNl_joinNl
      · intro hempty
        have hlen := congrArg List.length hempty
        simp only [List.length_append, List.length_replicate,
          List.length_nil] at hlen
        omega
      · intro x hx
        rcases List.mem_append.mp hx with hx | hx
        · exact hnl x hx
        · rw [List.eq_of_mem_replicate hx]; simp
    refine ⟨_, heq, ?_, ?_, ?_⟩
    · rw [hsp]
      simp only [List.length_append, List.length_replicate]
      push_cast
      omega
    · intro hcontra; omega
    · intro _
      exact hsp

/-- Witness for the amended C5 at `"a\nb\nc\nd"` and height 2: the result
is `"a\nd"`, two lines, first and last preserved. -/
theorem c5_trim_to_height_witness :
    (2 : Int) ≤ 2 ∧
    ∃ out, trimToHeight ('a' :: '\n' :: 'b' :: '\n' :: 'c' :: '\n' :: 'd' :: []) 2 = some out ∧
      ((splitOnNl out).length : Int) = 2 ∧
      (((dropTrailingEmpty (splitOnNl ('a' :: '\n' :: 'b' :: '\n' :: 'c' :: '\n' :: 'd' :: []))).length : Int) > 2 →
        splitOnNl out =
          ((dropTrailingEmpty (splitOnNl ('a' :: '\n' :: 'b' :: '\n' :: 'c' :: '\n' :: 'd' :: []))).headD [] ::
            ((dropTrailingEmpty (splitOnNl ('a' :: '\n' :: 'b' :: '\n' :: 'c' :: '\n' :: 'd' :: []))).drop 1).take
              ((2 : Int).toNat - 2)) ++
            [(dropTrailingEmpty (splitOnNl ('a' :: '\n' :: 'b' :: '\n' :: 'c' :: '\n' :: 'd' :: []))).getLastD []]) ∧
      (((dropTrailingEmpty (splitOnNl ('a' :: '\n' :: 'b' :: '\n' :: 'c' :: '\n' :: 'd' :: []))).length : Int) ≤ 2 →
        splitOnNl out = dropTrailingEmpty (splitOnNl ('a' :: '\n' :: 'b' :: '\n' :: 'c' :: '\n' :: 'd' :: [])) ++
          List.replicate
            ((2 : Int) - ((dropTrailingEmpty (splitOnNl ('a' :: '\n' :: 'b' :: '\n' :: 'c' :: '\n' :: 'd' :: []))).length : Int)).toNat
            []) :=
  ⟨by decide, c5_trim_to_height ('a' :: '\n' :: 'b' :: '\n' :: 'c' :: '\n' :: 'd' :: []) 2 (by decide)⟩

/-- Transliteration substitutes single characters for single characters,
so it preserves length. -/
theorem transliterateGraph_length (s : List Char) :
    (transliterateGraph s).length = s.length := by
  simp [transliterateGraph]

/-- One parsing step preserves the alignment invariant: every row's width
is bounded by the running maximum and equals its connector length. -/
theorem parseLine_invariant (st : ParseState) (l : List Char)
    (h : ∀ r ∈ st.rows, r.graphWidth ≤ st.maxGraphWidth ∧
      r.graphChars.length = r.graphWidth) :
    ∀ r ∈ (parseLine st l).rows,
      r.graphWidth ≤ (parseLine st l).maxGraphWidth ∧
      r.graphChars.length = r.graphWidth := by
  by_cases hl : l = []
  · subst hl; rw [parseLine_nil]; exact h
  · cases hfind : findHashIdx l with
    | none =>
      rw [parseLine_conn st l hl hfind]
      intro r hr
      simp only [List.mem_append, List.mem_singleton] at hr
      rcases hr with hr | hr
      · obtain ⟨h1, h2⟩ := h r hr
        refine ⟨?_, h2⟩
        simp only
        split_ifs with hw <;> omega
      · subst hr
        refine ⟨?_, transliterateGraph_length l⟩
        simp only
        split_ifs with hw <;> omega
    | some i =>
      by_cases hlen : (splitNChar '\x00' 6 (l.drop i)).length < 4
      · rw [parseLine_drop st l i hl hfind hlen]; exact h
      · rw [parseLine_commit st l i hl hfind hlen]
        intro r hr
        simp only [List.mem_append, List.mem_singleton] at hr
        rcases hr with hr | hr
        · obtain ⟨h1, h2⟩ := h r hr
          refine ⟨?_, h2⟩
          simp only
          split_ifs with hw <;> omega
        · subst hr
          refine ⟨?_, transliterateGraph_length (l.take i)⟩
          simp only
          split_ifs with hw <;> omega

/-- The invariant holds at the end of any full parse, from any invariant
state. -/
theorem foldl_parseLine_invariant (lines : List (List Char)) :
    ∀ st : ParseState,
      (∀ r ∈ st.rows, r.graphWidth ≤ st.maxGraphWidth ∧
        r.graphChars.length = r.graphWidth) →
      ∀ r ∈ (lines.foldl parseLine st).rows,
        r.graphWidth ≤ (lines.foldl parseLine st).maxGraphWidth ∧
        r.graphChars.length = r.graphWidth := by
  induction lines with
  | nil => intro st h; simpa using h
  | cons l rest ih =>
    intro st h
    rw [List.foldl_cons]
    exact ih (parseLine st l) (parseLine_invariant st l h)

/-- C3: after a complete parse, every row's `visualWidth` (`graphWidth`,
the character count of the pre-transliteration connector) is at most the
observed maximum `maxGraphWidth`, and padding the connector with
`maxGraphWidth - visualWidth` spaces (the `renderCommitList` padding)
makes every connector column exactly `maxGraphWidth` characters wide. -/
theorem c3_alignment (lines : List (List Char)) :
    ∀ r ∈ (loadGraphData lines).rows,
      r.graphWidth ≤ (loadGraphData lines).maxGraphWidth ∧
      (padGraph (loadGraphData lines).maxGraphWidth r).length =
        (loadGraphData lines).maxGraphWidth := by
  simp only [loadGraphData]
  intro r hr
  obtain ⟨h1, h2⟩ :=
    foldl_parseLine_invariant lines ⟨[], [], 0⟩ (by simp) r hr
  refine ⟨h1, ?_⟩
  simp only [padGraph, List.length_append, List.length_replicate, h2]
  omega

/-- Witness for C3 on the one-line stream `"|"`: the single connector row
has width 1 ≤ maxGraphWidth = 1 and pads to exactly 1 column. -/
theorem c3_alignment_witness :
    ((⟨['│'], -1, 1⟩ : DisplayRowL) ∈ (loadGraphData [['|']]).rows) ∧
    ((⟨['│'], -1, 1⟩ : DisplayRowL).graphWidth ≤
        (loadGraphData [['|']]).maxGraphWidth ∧
      (padGraph (loadGraphData [['|']]).maxGraphWidth
          ⟨['│'], -1, 1⟩).length =
        (loadGraphData [['|']]).maxGraphWidth) :=
  ⟨by decide, c3_alignment [['|']] ⟨['│'], -1, 1⟩ (by decide)⟩

/-- C1: for `totalRows ≥ 1`, `0 ≤ selectedRowIndex < totalRows` and
`viewportHeight ≥ 1`, the scroll-window computation of `renderCommitList`
returns a half-open range that contains the selected row, has length
`min viewportHeight totalRows`, and follows the anchored policy: the start
is `max 0 (sel - vh/3)`, slid back down (to `totalRows - vh`, floored at 0)
exactly when clamping the end to `totalRows` would shrink the window. -/
theorem c1_scroll_window (totalRows : Nat) (sel vh : Int)
    (h1 : 1 ≤ totalRows) (h2 : 0 ≤ sel) (h3 : sel < (totalRows : Int))
    (h4 : 1 ≤ vh) :
    (visibleRange totalRows sel vh).1 ≤ sel ∧
    sel < (visibleRange totalRows sel vh).2 ∧
    (visibleRange totalRows sel vh).2 - (visibleRange totalRows sel vh).1 =
      min vh (totalRows : Int) ∧
    (visibleRange totalRows sel vh).1 =
      max (min (max 0 (sel - vh / 3)) ((totalRows : Int) - vh)) 0 ∧
    (visibleRange totalRows sel vh).2 =
      min (max 0 (sel - vh / 3) + vh) (totalRows : Int) := by
  simp only [visibleRange]
  split_ifs <;> simp_all <;> omega

/-- Witness for C1 at the spec's own scenario: 1000 rows, selection 500,
viewport 10 gives the range `[497, 507)`. -/
theorem c1_scroll_window_witness :
    (1 ≤ 1000 ∧ (0 : Int) ≤ 500 ∧ (500 : Int) < 1000 ∧ (1 : Int) ≤ 10) ∧
    ((visibleRange 1000 500 10).1 ≤ 500 ∧
      (500 : Int) < (visibleRange 1000 500 10).2 ∧
      (visibleRange 1000 500 10).2 - (visibleRange 1000 500 10).1 =
        min 10 (1000 : Int) ∧
      (visibleRange 1000 500 10).1 =
        max (min (max 0 ((500 : Int) - 10 / 3)) ((1000 : Int) - 10)) 0 ∧
      (visibleRange 1000 500 10).2 =
        min (max 0 ((500 : Int) - 10 / 3) + 10) (1000 : Int)) :=
  ⟨⟨by decide, by decide, by decide, by decide⟩,
    c1_scroll_window 1000 500 10 (by decide) (by decide) (by decide) (by decide)⟩

/-! ### The model and the render pass (`View`, for C6) -/

/-- The `model` struct of the source, restricted to the fields the
embedded operations read or write.  `err : Bool` records whether the Go
`err` field is non-nil. -/
structure ModelL where
  commits : List GCommit
  ready : Bool
  err : Bool
  selected : Int
  windowHeight : Int
  windowWidth : Int
  focusedBox : Int
  detailsScroll : Int
  displayRows : List DisplayRowL
  maxGraphWidth : Nat
deriving DecidableEq, Repr

/-- Model of `lipgloss.Height`: one plus the number of newline bytes.  An ANSI
escape sequence contains no newline byte, so escape sequences can never be
miscounted as lines by this measure. -/
def lineCount (s : List Char) : Nat := s.countP (· = '\n') + 1

/-- The final force-fit step of `View`: if the composed frame is taller
than the window, keep the first `windowHeight` lines; if shorter, append
empty lines (`output += "\n"` per missing line). -/
def fitToHeight (output : List Char) (h : Int) : List Char :=
  if (lineCount output : Int) > h then
    joinNl ((splitOnNl output).take h.toNat)
  else
    output ++ List.replicate (h - (lineCount output : Int)).toNat '\n'

/-- Go `View`: the guard structure and the final exact-height fit of the
source.  The lipgloss panel composition in between (repo-info box, the
two panels, the help line) only builds the frame string; it is abstracted
here as the already-composed frame `preFrame`, and the property below
holds for every such frame. -/
def View (m : ModelL) (preFrame : List Char) : List Char :=
  if ¬m.ready then '\n' :: ("  Initializing...".toList)
  else if m.windowWidth < 20 ∨ m.windowHeight < 10 then
    '\n' :: ("  Waiting for terminal size...".toList)
  else if m.err then '\n' :: ("  Error loading repository".toList)
  else fitToHeight preFrame m.windowHeight

/-- The line count is the number of split pieces. -/
theorem lineCount_eq_split_length (s : List Char) :
    lineCount s = (splitOnNl s).length := by
  induction s with
  | nil => simp [lineCount, splitOnNl]
  | cons c rest ih =>
    by_cases hc : c = '\n'
    · subst hc
      simp only [lineCount, List.countP_cons, splitOnNl, if_true,
        List.length_cons] at *
      simp at *
      omega
    · simp only [lineCount, List.countP_cons, splitOnNl, if_neg hc] at *
      rcases hsp : splitOnNl rest with - | ⟨l, ls⟩
      · exact absurd hsp (splitOnNl_ne_nil rest)
      · rw [hsp] at ih
        simp only [List.length_cons] at *
        simpa [hc] using ih

/-- Appending `k` newlines adds `k` lines. -/
theorem lineCount_append_nl (s : List Char) (k : Nat) :
    lineCount (s ++ List.replicate k '\n') = lineCount s + k := by
  have hrep : (List.replicate k '\n').countP (fun c => c = '\n') = k := by
    induction k with
    | zero => simp
    | succ n ih => simp [List.replicate_succ, List.countP_cons, ih]
  simp [lineCount, List.countP_append, hrep]
  omega

/-- C6: for a ready model with no stored error and a window of at least
20×10, the render pass returns a frame of exactly `windowHeight` lines
(counted by the ANSI-safe newline measure): a taller composed frame is
trimmed from the bottom and a shorter one padded with empty lines. -/
theorem c6_exact_height (m : ModelL) (preFrame : List Char)
    (hready : m.ready = true) (herr : m.err = false)
    (hw : 20 ≤ m.windowWidth) (hh : 10 ≤ m.windowHeight) :
    (lineCount (View m preFrame) : Int) = m.windowHeight := by
  have hguard : ¬(m.windowWidth < 20 ∨ m.windowHeight < 10) := by
    push_neg
    exact ⟨hw, hh⟩
  simp only [View, hready, herr, Bool.true_eq_false, not_true,
    if_false, if_neg hguard, Bool.false_eq_true, if_true]
  simp only [fitToHeight]
  by_cases hlong : (lineCount preFrame : Int) > m.windowHeight
  · rw [if_pos hlong]
    have hnl : ∀ x ∈ (splitOnNl preFrame).take m.windowHeight.toNat,
        '\n' ∉ x :=
      fun x hx => mem_splitOnNl_no_nl preFrame x (List.take_subset _ _ hx)
    have hlen : (splitOnNl preFrame).length = lineCount preFrame :=
      (lineCount_eq_split_length preFrame).symm
    have hne : (splitOnNl preFrame).take m.windowHeight.toNat ≠ [] := by
      intro hemp
      have := congrArg List.length hemp
      simp only [List.length_take, List.length_nil, hlen] at this
      omega
    rw [lineCount_eq_split_length, splitOnNl_joinNl _ hne hnl]
    simp only [List.length_take, hlen]
    omega
  · rw [if_neg hlong]
    rw [lineCount_append_nl]
    push_cast
    omega

/-- A concrete ready 20×10 model (fields in declaration order: commits,
ready, err, selected, windowHeight, windowWidth, focusedBox,
detailsScroll, displayRows, maxGraphWidth). -/
def sampleModel : ModelL := ⟨[], true, false, 0, 10, 20, 1, 0, [], 0⟩

/-- Witness for C6: the concrete ready 20×10 model with a one-line frame
renders to exactly 10 lines. -/
theorem c6_exact_height_witness :
    (sampleModel.ready = true ∧ sampleModel.err = false ∧
      20 ≤ sampleModel.windowWidth ∧ 10 ≤ sampleModel.windowHeight) ∧
    (lineCount (View sampleModel ('h' :: 'i' :: [])) : Int) = 10 :=
  ⟨⟨rfl, rfl, by decide, by decide⟩,
    c6_exact_height sampleModel ('h' :: 'i' :: []) rfl rfl
      (by decide) (by decide)⟩

/-! ### Diff attachment (`Update`, case `diffLoadedMsg`, for C7 and C10) -/

/-- In-place update of the three diff fields of the commit at index `i`:
Go `m.commits[idx].DiffLoaded = true`, `...DiffStat = msg.diffStat`,
`...DiffBody = msg.diffBody`. -/
def attachDiff (stat body : List Char) (c : GCommit) : GCommit :=
  { c with diffLoaded := true, diffStat := stat, diffBody := body }

def setDiff : List GCommit → Nat → List Char → List Char → List GCommit
  | [], _, _, _ => []
  | c :: rest, 0, stat, body => attachDiff stat body c :: rest
  | c :: rest, n + 1, stat, body => c :: setDiff rest n stat body

/-- The `diffLoadedMsg` case of `Update`: mutate the commit record only
when `msg.commitIdx >= 0 && msg.commitIdx < len(m.commits)`. -/
def updateDiffLoaded (m : ModelL) (commitIdx : Int)
    (diffStat diffBody : List Char) : ModelL :=
  if 0 ≤ commitIdx ∧ commitIdx < (m.commits.length : Int) then
    { m with commits := setDiff m.commits commitIdx.toNat diffStat diffBody }
  else m

theorem setDiff_length (l : List GCommit) (n : Nat) (s b : List Char) :
    (setDiff l n s b).length = l.length := by
  induction l generalizing n with
  | nil => simp [setDiff]
  | cons c rest ih => cases n <;> simp [setDiff, ih]

theorem setDiff_idem (l : List GCommit) (n : Nat) (s b : List Char) :
    setDiff (setDiff l n s b) n s b = setDiff l n s b := by
  induction l generalizing n with
  | nil => simp [setDiff]
  | cons c rest ih => cases n <;> simp [setDiff, attachDiff, ih]

theorem setDiff_getElem?_ne (l : List GCommit) (n j : Nat)
    (s b : List Char) (h : j ≠ n) : (setDiff l n s b)[j]? = l[j]? := by
  induction l generalizing n j with
  | nil => simp [setDiff]
  | cons c rest ih =>
    cases n with
    | zero =>
      cases j with
      | zero => exact absurd rfl h
      | succ j' => simp [setDiff]
    | succ n' =>
      cases j with
      | zero => simp [setDiff]
      | succ j' =>
        simp only [setDiff, List.getElem?_cons_succ]
        exact ih n' j' (fun hc => h (by omega))

theorem setDiff_getElem?_eq (l : List GCommit) (n : Nat)
    (s b : List Char) :
    (setDiff l n s b)[n]? = (l[n]?).map (attachDiff s b) := by
  induction l generalizing n with
  | nil => simp [setDiff]
  | cons c rest ih =>
    cases n with
    | zero => simp [setDiff]
    | succ n' =>
      simp only [setDiff, List.getElem?_cons_succ]
      exact ih n'

/-- C7: diff attachment is idempotent — applying the `diffLoadedMsg`
update twice with the same in-range index and payload stores exactly the
same state as applying it once. -/
theorem c7_diff_attach_idempotent (m : ModelL) (idx : Int)
    (stat body : List Char) (h0 : 0 ≤ idx)
    (h1 : idx < (m.commits.length : Int)) :
    updateDiffLoaded (updateDiffLoaded m idx stat body) idx stat body =
      updateDiffLoaded m idx stat body := by
  simp only [updateDiffLoaded, if_pos (And.intro h0 h1)]
  have hcond : (0 ≤ idx ∧ idx <
      (((setDiff m.commits idx.toNat stat body).length : Nat) : Int)) := by
    rw [setDiff_length]
    exact ⟨h0, h1⟩
  simp only [if_pos hcond, setDiff_idem]

/-- A model with one (default) commit, ready, 20×10 window. -/
def sampleModelOneCommit : ModelL :=
  ⟨[default], true, false, 0, 10, 20, 1, 0, [], 0⟩

/-- A ready model with two (default) commits, commit list focused,
scroll offset 7. -/
def sampleModelTwoCommits : ModelL :=
  ⟨[default, default], true, false, 0, 10, 20, 1, 7, [], 0⟩

/-- Witness for C7 at a concrete model with one commit, index 0. -/
theorem c7_diff_attach_idempotent_witness :
    ((0 : Int) ≤ 0 ∧
      (0 : Int) < (sampleModelOneCommit.commits.length : Int)) ∧
    updateDiffLoaded (updateDiffLoaded sampleModelOneCommit 0 ['s'] ['b'])
        0 ['s'] ['b'] =
      updateDiffLoaded sampleModelOneCommit 0 ['s'] ['b'] :=
  ⟨⟨by decide, by decide⟩,
    c7_diff_attach_idempotent sampleModelOneCommit 0 ['s'] ['b']
      (by decide) (by decide)⟩

/-- C10: the `diffLoadedMsg` update touches nothing but the three diff
fields of the single commit at `commitIdx`: every other model field, the
display rows, the commit count, and every other commit record are
unchanged, and an out-of-range index leaves the whole state unchanged. -/
theorem c10_diff_attach_frame (m : ModelL) (idx : Int)
    (stat body : List Char) :
    (¬(0 ≤ idx ∧ idx < (m.commits.length : Int)) →
      updateDiffLoaded m idx stat body = m) ∧
    (updateDiffLoaded m idx stat body).ready = m.ready ∧
    (updateDiffLoaded m idx stat body).err = m.err ∧
    (updateDiffLoaded m idx stat body).selected = m.selected ∧
    (updateDiffLoaded m idx stat body).windowHeight = m.windowHeight ∧
    (updateDiffLoaded m idx stat body).windowWidth = m.windowWidth ∧
    (updateDiffLoaded m idx stat body).focusedBox = m.focusedBox ∧
    (updateDiffLoaded m idx stat body).detailsScroll = m.detailsScroll ∧
    (updateDiffLoaded m idx stat body).displayRows = m.displayRows ∧
    (updateDiffLoaded m idx stat body).maxGraphWidth = m.maxGraphWidth ∧
    (updateDiffLoaded m idx stat body).commits.length =
      m.commits.length ∧
    (∀ j : Nat, (j : Int) ≠ idx →
      (updateDiffLoaded m idx stat body).commits[j]? = m.commits[j]?) ∧
    (0 ≤ idx ∧ idx < (m.commits.length : Int) →
      (updateDiffLoaded m idx stat body).commits[idx.toNat]? =
        (m.commits[idx.toNat]?).map (attachDiff stat body)) := by
  by_cases hin : 0 ≤ idx ∧ idx < (m.commits.length : Int)
  · have hupd : updateDiffLoaded m idx stat body =
        { m with commits := setDiff m.commits idx.toNat stat body } := by
      simp only [updateDiffLoaded, if_pos hin]
    rw [hupd]
    refine ⟨fun hc => absurd hin hc, rfl, rfl, rfl, rfl, rfl, rfl, rfl,
      rfl, rfl, setDiff_length _ _ _ _, ?_, ?_⟩
    · intro j hj
      exact setDiff_getElem?_ne _ _ _ _ _ (fun hc => hj (by omega))
    · intro _
      exact setDiff_getElem?_eq _ _ _ _
  · have hupd : updateDiffLoaded m idx stat body = m := by
      simp only [updateDiffLoaded, if_neg hin]
    rw [hupd]
    exact ⟨fun _ => rfl, rfl, rfl, rfl, rfl, rfl, rfl, rfl, rfl, rfl,
      rfl, fun j hj => rfl, fun hc => absurd hc hin⟩

/-- Witness for C10 at a concrete model: index 1 is out of range for a
one-commit list, so the state is unchanged. -/
theorem c10_diff_attach_frame_witness :
    (¬((0 : Int) ≤ 1 ∧
        (1 : Int) < (sampleModelOneCommit.commits.length : Int))) ∧
    updateDiffLoaded sampleModelOneCommit 1 ['s'] ['b'] =
      sampleModelOneCommit :=
  ⟨by decide,
    (c10_diff_attach_frame sampleModelOneCommit 1 ['s'] ['b']).1
      (by decide)⟩

/-! ### Keyboard navigation (`Update`, case `tea.KeyMsg`, for C8) -/

/-- The inner key switch for `focusedBox == 1` (commit list / graph). -/
def updateKeyList (m : ModelL) (key : List Char) : ModelL :=
  if key = "j".toList ∨ key = "down".toList then
    if m.selected < (m.commits.length : Int) - 1 then
      { m with selected := m.selected + 1, detailsScroll := 0 }
    else m
  else if key = "k".toList ∨ key = "up".toList then
    if 0 < m.selected then
      { m with selected := m.selected - 1, detailsScroll := 0 }
    else m
  else if key = "d".toList ∨ key = "ctrl+d".toList then
    let s := m.selected + 10
    let s := if (m.commits.length : Int) ≤ s then
      (m.commits.length : Int) - 1 else s
    { m with selected := s, detailsScroll := 0 }
  else if key = "u".toList ∨ key = "ctrl+u".toList then
    let s := m.selected - 10
    let s := if s < 0 then 0 else s
    { m with selected := s, detailsScroll := 0 }
  else if key = "g".toList ∨ key = "home".toList then
    { m with selected := 0, detailsScroll := 0 }
  else if key = "G".toList ∨ key = "end".toList then
    { m with selected := (m.commits.length : Int) - 1, detailsScroll := 0 }
  else m

/-- The inner key switch for `focusedBox == 2` (commit details). -/
def updateKeyDetails (m : ModelL) (key : List Char) : ModelL :=
  if key = "j".toList ∨ key = "down".toList then
    { m with detailsScroll := m.detailsScroll + 1 }
  else if key = "k".toList ∨ key = "up".toList then
    if 0 < m.detailsScroll then
      { m with detailsScroll := m.detailsScroll - 1 }
    else m
  else if key = "d".toList ∨ key = "ctrl+d".toList then
    { m with detailsScroll := m.detailsScroll + 10 }
  else if key = "u".toList ∨ key = "ctrl+u".toList then
    let s := m.detailsScroll - 10
    let s := if s < 0 then 0 else s
    { m with detailsScroll := s }
  else if key = "g".toList ∨ key = "home".toList then
    { m with detailsScroll := 0 }
  else m

/-- The `tea.KeyMsg` case of `Update`, keyed on `msg.String()`: quit keys
leave the state unchanged (the returned command is not modelled), the
digit keys move the focus, and scrolling is dispatched on the focused
box when the model is ready and has commits. -/
def updateKey (m : ModelL) (key : List Char) : ModelL :=
  if key = "q".toList ∨ key = "ctrl+c".toList ∨ key = "esc".toList then m
  else if key = "0".toList then { m with focusedBox := 0 }
  else if key = "1".toList then { m with focusedBox := 1 }
  else if key = "2".toList then { m with focusedBox := 2 }
  else if m.ready = true ∧ 0 < m.commits.length then
    if m.focusedBox = 1 then updateKeyList m key
    else if m.focusedBox = 2 then updateKeyDetails m key
    else m
  else m

/-- The commit-list handler zeroes the scroll whenever it may have moved
the selection. -/
theorem updateKeyList_selected_or_scroll (m : ModelL) (key : List Char) :
    (updateKeyList m key).selected = m.selected ∨
    (updateKeyList m key).detailsScroll = 0 := by
  simp only [updateKeyList]
  split_ifs <;> first
    | exact Or.inl rfl
    | exact Or.inr rfl

/-- The details handler never touches the selection. -/
theorem updateKeyDetails_selected (m : ModelL) (key : List Char) :
    (updateKeyDetails m key).selected = m.selected := by
  simp only [updateKeyDetails]
  split_ifs <;> rfl

/-- Every key handler either leaves the selection alone or zeroes the
detail scroll offset. -/
theorem updateKey_selected_or_scroll (m : ModelL) (key : List Char) :
    (updateKey m key).selected = m.selected ∨
    (updateKey m key).detailsScroll = 0 := by
  simp only [updateKey]
  split_ifs <;> first
    | exact Or.inl rfl
    | exact Or.inl (updateKeyDetails_selected m key)
    | exact updateKeyList_selected_or_scroll m key

/-- C8: whenever a key event changes `selectedCommitIndex`, the resulting
state has `detailsScroll = 0` — the detail panel scroll offset is never
carried across a selection change. -/
theorem c8_selection_resets_scroll (m : ModelL) (key : List Char)
    (hchanged : (updateKey m key).selected ≠ m.selected) :
    (updateKey m key).detailsScroll = 0 := by
  rcases updateKey_selected_or_scroll m key with h | h
  · exact absurd h hchanged
  · exact h

/-- Witness for C8: pressing `j` on a ready two-commit model moves the
selection from 0 to 1 and the resulting scroll offset is 0. -/
theorem c8_selection_resets_scroll_witness :
    (updateKey sampleModelTwoCommits ('j' :: [])).selected ≠
      sampleModelTwoCommits.selected ∧
    (updateKey sampleModelTwoCommits ('j' :: [])).detailsScroll = 0 :=
  ⟨by decide,
    c8_selection_resets_scroll sampleModelTwoCommits ('j' :: [])
      (by decide)⟩

/-! ### Graph-unavailable fallback and simple mode (for C9) -/

/-- The fallback path of `Update`'s `repoMsg`/`errMsg` cases when
`loadGraphData` fails: the `git log --graph` process failed before the
parser touched the model, so `displayRows` keeps its prior value (empty
on a fresh model); `loadCommitsFromGitCLI`'s commits are stored and the
model becomes ready with the first commit selected. -/
def updateRepoMsgFallback (m : ModelL) (cliCommits : List GCommit) :
    ModelL :=
  { m with commits := cliCommits, ready := true, selected := 0 }

/-- Integer range `[s, e)` as a list. -/
def intRange (s e : Int) : List Int :=
  (List.range (e - s).toNat).map (fun k => s + (k : Int))

/-- The commit index displayed on each visible line of
`renderCommitList`, one entry per rendered row: graph mode slices
`displayRows` by the anchored scroll window (a `-1` entry is a
connector-only line); simple mode — no display rows — renders commits
`startIdx … endIdx-1` directly, the same row shape consumed by the same
rendering path. -/
def commitListVisible (m : ModelL) : List Int :=
  if m.commits.length = 0 then []
  else
    let vh : Int :=
      if m.windowHeight - 8 < 1 then 1 else m.windowHeight - 8
    if 0 < m.displayRows.length then
      let selRow : Int :=
        match m.displayRows.findIdx? (fun r => r.commitIdx = m.selected) with
        | some i => (i : Int)
        | none => 0
      let p := visibleRange m.displayRows.length selRow vh
      ((m.displayRows.drop p.1.toNat).take (p.2 - p.1).toNat).map
        (fun r => r.commitIdx)
    else
      let s : Int := if vh ≤ m.selected then m.selected - vh + 1 else 0
      let e : Int :=
        if (m.commits.length : Int) < s + vh then (m.commits.length : Int)
        else s + vh
      intRange s e

/-- C9: simple-mode fallback shows one row per commit, row j = commit j. -/
theorem c9_simple_mode_fallback (m : ModelL) (cs : List GCommit)
    (hrows : m.displayRows = []) (hcs : cs ≠ [])
    (hfit : (cs.length : Int) ≤ m.windowHeight - 8) :
    (updateRepoMsgFallback m cs).displayRows = [] ∧
    (updateRepoMsgFallback m cs).commits = cs ∧
    (updateRepoMsgFallback m cs).ready = true ∧
    (updateRepoMsgFallback m cs).selected = 0 ∧
    commitListVisible (updateRepoMsgFallback m cs) =
      (List.range cs.length).map (fun i => (i : Int)) := by
  have hlen1 : 1 ≤ cs.length := by
    cases cs with
    | nil => exact absurd rfl hcs
    | cons a t => simp
  refine ⟨by simp [updateRepoMsgFallback, hrows], rfl, rfl, rfl, ?_⟩
  simp only [commitListVisible, updateRepoMsgFallback, hrows]
  have hvh : (if m.windowHeight - 8 < 1 then (1 : Int)
      else m.windowHeight - 8) = m.windowHeight - 8 := if_neg (by omega)
  rw [hvh]
  rw [if_neg (show ¬cs.length = 0 by omega)]
  rw [if_neg (show ¬(0 < ([] : List DisplayRowL).length) by simp)]
  rw [if_neg (show ¬(m.windowHeight - 8 ≤ (0 : Int)) by omega)]
  have he : (if (cs.length : Int) < 0 + (m.windowHeight - 8) then
      (cs.length : Int) else 0 + (m.windowHeight - 8)) =
      (cs.length : Int) := by
    split_ifs <;> omega
  rw [he]
  simp [intRange]

/-- A fresh (pre-load) model: not ready, no commits, no display rows,
40x20 window. -/
def sampleModelFresh : ModelL := ⟨[], false, false, 0, 20, 40, 1, 0, [], 0⟩

/-- Witness for C9: falling back with two CLI commits on a fresh model
yields visible rows `[0, 1]` — one row per commit, row index = commit
index. -/
theorem c9_simple_mode_fallback_witness :
    (sampleModelFresh.displayRows = [] ∧
      ([default, default] : List GCommit) ≠ [] ∧
      ((([default, default] : List GCommit)).length : Int) ≤
        sampleModelFresh.windowHeight - 8) ∧
    commitListVisible
        (updateRepoMsgFallback sampleModelFresh [default, default]) =
      (List.range ([default, default] : List GCommit).length).map
        (fun i => (i : Int)) :=
  ⟨⟨rfl, by decide, by decide⟩,
    (c9_simple_mode_fallback sampleModelFresh [default, default] rfl
      (by decide) (by decide)).2.2.2.2⟩

end Gitraffe
